import Mathlib

/-!
Verification of the URL-extraction and output-path logic of
`tools/openart_download_images.py`.

Python strings are modelled as Lean `String`s, with the string operations the
script uses (`lower`, `startswith`, `endswith`, `split(sep, 1)`) spelled out
on the underlying character lists.  Lower-casing is the ASCII lower-casing,
on which the Python and Lean notions agree.
-/

/-- Model of Python `s.lower()` (ASCII case folding). -/
def pyLower (s : String) : String :=
  String.mk (s.data.map Char.toLower)

/-- Model of Python `s.startswith(pre)`. -/
def pyStartsWith (s pre : String) : Bool :=
  pre.data.isPrefixOf s.data

/-- Model of Python `s.endswith(suf)`. -/
def pyEndsWith (s suf : String) : Bool :=
  suf.data.isSuffixOf s.data

/-- Split a character list at the first occurrence of `sep`:
`some (before, after)` when `sep` occurs, `none` otherwise. -/
def splitAtFirst (sep : Char) : List Char → Option (List Char × List Char)
  | [] => none
  | c :: rest =>
    if c = sep then some ([], rest)
    else
      match splitAtFirst sep rest with
      | some (pre, post) => some (c :: pre, post)
      | none => none

/-- Model of Python `s.split(sep, 1)` for a one-character separator:
the list has one element when `sep` does not occur, two otherwise. -/
def pySplitOnce (s : String) (sep : Char) : List String :=
  match splitAtFirst sep s.data with
  | none => [s]
  | some (pre, post) => [String.mk pre, String.mk post]

/-- `looks_like_image` from `tools/openart_download_images.py` (lines 21-25):
lower-case the url, require the `http` prefix, and require that the part
before the first `?` ends with one of the image extensions. -/
def looks_like_image (url : String) : Bool :=
  let lowered := pyLower url
  pyStartsWith lowered "http" &&
    [".png", ".jpg", ".jpeg", ".webp"].any
      (fun ext => pyEndsWith ((pySplitOnce lowered '?').headD "") ext)

/-! ### JSON values

The parsed-JSON domain: strings, numbers, booleans, null, objects (ordered
key/value fields) and arrays.  The field list and element list are part of a
mutual inductive so that all walks are plain structural recursions. -/

mutual
inductive Json where
  | str (s : String)
  | num (n : Int)
  | bool (b : Bool)
  | null
  | obj (fields : JFields)
  | arr (items : JList)
inductive JFields where
  | nil
  | cons (key : String) (val : Json) (rest : JFields)
inductive JList where
  | nil
  | cons (head : Json) (tail : JList)
end

/-- Model of Python `dict.get(key)` on an object's field list (first match;
JSON-parsed dicts have unique keys, so this is the dict lookup). -/
def JFields.get? : JFields → String → Option Json
  | .nil, _ => none
  | .cons k v rest, key => if k = key then some v else JFields.get? rest key

/-- The candidate recorded by the object case of `walk` before the generic
descent: the value of the `"url"` key, when it is a string matching the
predicate (lines 36-38 of the script). -/
def urlCandidate (fs : JFields) : List String :=
  match fs.get? "url" with
  | some (.str u) => if looks_like_image u then [u] else []
  | _ => []

mutual
/-- The inner `walk` of `extract_image_urls` (lines 32-45): the raw,
pre-dedup candidate list in traversal order. -/
def walk : Json → List String
  | .str s => if looks_like_image s then [s] else []
  | .num _ => []
  | .bool _ => []
  | .null => []
  | .obj fs => urlCandidate fs ++ walkFields fs
  | .arr xs => walkList xs
/-- `walk` over `value.values()` of an object, in field order. -/
def walkFields : JFields → List String
  | .nil => []
  | .cons _ v rest => walk v ++ walkFields rest
/-- `walk` over the items of an array, in order. -/
def walkList : JList → List String
  | .nil => []
  | .cons v rest => walk v ++ walkList rest
end

/-- The dedup pass of `extract_image_urls` (lines 48-55): `seen` is the set
of already-kept urls, kept urls are emitted in first-occurrence order. -/
def dedupSeen : List String → List String → List String
  | _, [] => []
  | seen, u :: rest =>
    if u ∈ seen then dedupSeen seen rest
    else u :: dedupSeen (u :: seen) rest

/-- `extract_image_urls` from `tools/openart_download_images.py`
(lines 28-56): walk, then deduplicate preserving order. -/
def extract_image_urls (payload : Json) : List String :=
  dedupSeen [] (walk payload)

mutual
/-- All strings occurring as string *nodes* (values) of a JSON tree — object
keys are not nodes of the tree walk. -/
def stringNodes : Json → List String
  | .str s => [s]
  | .num _ => []
  | .bool _ => []
  | .null => []
  | .obj fs => stringNodesFields fs
  | .arr xs => stringNodesList xs
def stringNodesFields : JFields → List String
  | .nil => []
  | .cons _ v rest => stringNodes v ++ stringNodesFields rest
def stringNodesList : JList → List String
  | .nil => []
  | .cons v rest => stringNodes v ++ stringNodesList rest
end

example : looks_like_image "http://x.com/a.png?sig=abc" = true := by decide
example : looks_like_image "HTTPS://X.COM/A.PNG" = true := by decide
example : looks_like_image "http://x.com/a.php?img=.png" = false := by decide
example : looks_like_image "see http://x.com/a.png" = false := by decide
example : looks_like_image "httpfoo.png" = true := by decide
example :
    extract_image_urls
      (.obj (.cons "url" (.str "http://x.com/a.png")
        (.cons "other" (.str "http://x.com/a.png") .nil)))
      = ["http://x.com/a.png"] := by decide

/-! ### Lemmas about the dedup pass -/

theorem mem_dedupSeen (l : List String) :
    ∀ seen s, s ∈ dedupSeen seen l ↔ (s ∈ l ∧ s ∉ seen) := by
  induction l with
  | nil => intro seen s; simp [dedupSeen]
  | cons u rest ih =>
    intro seen s
    by_cases hu : u ∈ seen
    · simp only [dedupSeen, if_pos hu, ih]
      constructor
      · rintro ⟨hs, hn⟩; exact ⟨List.mem_cons_of_mem _ hs, hn⟩
      · rintro ⟨hs, hn⟩
        rcases List.mem_cons.mp hs with rfl | hs
        · exact absurd hu hn
        · exact ⟨hs, hn⟩
    · simp only [dedupSeen, if_neg hu, List.mem_cons, ih]
      constructor
      · rintro (rfl | ⟨hs, hn⟩)
        · exact ⟨Or.inl rfl, hu⟩
        · exact ⟨Or.inr hs, fun h => hn (Or.inr h)⟩
      · rintro ⟨rfl | hs, hn⟩
        · exact Or.inl rfl
        · by_cases hsu : s = u
          · exact Or.inl hsu
          · exact Or.inr ⟨hs, fun hc => hc.elim hsu hn⟩

theorem nodup_dedupSeen (l : List String) :
    ∀ seen, (dedupSeen seen l).Nodup := by
  induction l with
  | nil => intro seen; simp [dedupSeen]
  | cons u rest ih =>
    intro seen
    by_cases hu : u ∈ seen
    · simpa [dedupSeen, if_pos hu] using ih seen
    · simp only [dedupSeen, if_neg hu, List.nodup_cons]
      refine ⟨fun hmem => ?_, ih _⟩
      exact ((mem_dedupSeen rest _ u).mp hmem).2 (List.mem_cons_self _ _)

theorem dedupSeen_sublist (l : List String) :
    ∀ seen, List.Sublist (dedupSeen seen l) l := by
  induction l with
  | nil => intro seen; simp [dedupSeen]
  | cons u rest ih =>
    intro seen
    by_cases hu : u ∈ seen
    · simpa [dedupSeen, if_pos hu] using (ih seen).trans (List.sublist_cons_self u rest)
    · simpa [dedupSeen, if_neg hu] using (ih (u :: seen)).cons₂ u

theorem dedupSeen_eq_foldl (l : List String) :
    ∀ (acc seen : List String), (∀ s, s ∈ seen ↔ s ∈ acc) →
      acc ++ dedupSeen seen l
        = l.foldl (fun a u => if u ∈ a then a else a ++ [u]) acc := by
  induction l with
  | nil => intro acc seen _; simp [dedupSeen]
  | cons u rest ih =>
    intro acc seen h
    by_cases hu : u ∈ seen
    · have hu' : u ∈ acc := (h u).mp hu
      simp only [dedupSeen, if_pos hu, List.foldl_cons, if_pos hu']
      exact ih acc seen h
    · have hu' : u ∉ acc := fun hc => hu ((h u).mpr hc)
      simp only [dedupSeen, if_neg hu, List.foldl_cons, if_neg hu']
      have := ih (acc ++ [u]) (u :: seen) (by
        intro s
        simp only [List.mem_cons, List.mem_append, List.mem_singleton, h s]
        tauto)
      calc acc ++ u :: dedupSeen (u :: seen) rest
          = (acc ++ [u]) ++ dedupSeen (u :: seen) rest := by simp
        _ = _ := this

theorem dedupSeen_of_nodup (l : List String) :
    ∀ seen, l.Nodup → (∀ s ∈ l, s ∉ seen) → dedupSeen seen l = l := by
  induction l with
  | nil => intro seen _ _; simp [dedupSeen]
  | cons u rest ih =>
    intro seen hnd hdisj
    have hu : u ∉ seen := hdisj u (List.mem_cons_self _ _)
    simp only [dedupSeen, if_neg hu]
    congr 1
    refine ih _ (List.nodup_cons.mp hnd).2 ?_
    intro s hs
    simp only [List.mem_cons]
    rintro (rfl | hseen)
    · exact (List.nodup_cons.mp hnd).1 hs
    · exact hdisj s (List.mem_cons_of_mem _ hs) hseen

/-! ### Soundness of the walk: candidates match the predicate and occur as
string nodes of the tree -/

theorem get?_stringNodes {fs : JFields} {k : String} {v : Json}
    (h : fs.get? k = some v) : ∀ s ∈ stringNodes v, s ∈ stringNodesFields fs := by
  cases fs with
  | nil => simp [JFields.get?] at h
  | cons k' v' rest =>
    intro s hs
    simp only [JFields.get?] at h
    by_cases hk : k' = k
    · rw [if_pos hk] at h
      cases h
      exact List.mem_append_left _ hs
    · rw [if_neg hk] at h
      exact List.mem_append_right _ (get?_stringNodes h s hs)

theorem urlCandidate_sound {fs : JFields} {s : String}
    (h : s ∈ urlCandidate fs) :
    looks_like_image s = true ∧ s ∈ stringNodesFields fs := by
  unfold urlCandidate at h
  split at h
  · next u hget =>
    split at h
    · next hl =>
      simp only [List.mem_singleton] at h
      subst h
      exact ⟨hl, get?_stringNodes hget s (by simp [stringNodes])⟩
    · simp at h
  · simp at h

mutual
theorem walk_sound (p : Json) :
    ∀ s ∈ walk p, looks_like_image s = true ∧ s ∈ stringNodes p := by
  cases p with
  | str t =>
    intro s hs
    simp only [walk] at hs
    by_cases hl : looks_like_image t = true
    · rw [if_pos hl] at hs
      simp only [List.mem_singleton] at hs
      subst hs
      exact ⟨hl, by simp [stringNodes]⟩
    · rw [if_neg hl] at hs; simp at hs
  | num n => intro s hs; simp [walk] at hs
  | bool b => intro s hs; simp [walk] at hs
  | null => intro s hs; simp [walk] at hs
  | obj fs =>
    intro s hs
    simp only [walk, List.mem_append] at hs
    cases hs with
    | inl h => exact (urlCandidate_sound h).imp id (fun h' => by simpa [stringNodes] using h')
    | inr h =>
      have := walkFields_sound fs s h
      exact this.imp id (fun h' => by simpa [stringNodes] using h')
  | arr xs =>
    intro s hs
    simp only [walk] at hs
    have := walkList_sound xs s hs
    exact this.imp id (fun h' => by simpa [stringNodes] using h')
theorem walkFields_sound (fs : JFields) :
    ∀ s ∈ walkFields fs, looks_like_image s = true ∧ s ∈ stringNodesFields fs := by
  cases fs with
  | nil => intro s hs; simp [walkFields] at hs
  | cons k v rest =>
    intro s hs
    simp only [walkFields, List.mem_append] at hs
    cases hs with
    | inl h =>
      exact (walk_sound v s h).imp id (fun h' => List.mem_append_left _ h')
    | inr h =>
      exact (walkFields_sound rest s h).imp id (fun h' => List.mem_append_right _ h')
theorem walkList_sound (xs : JList) :
    ∀ s ∈ walkList xs, looks_like_image s = true ∧ s ∈ stringNodesList xs := by
  cases xs with
  | nil => intro s hs; simp [walkList] at hs
  | cons v rest =>
    intro s hs
    simp only [walkList, List.mem_append] at hs
    cases hs with
    | inl h =>
      exact (walk_sound v s h).imp id (fun h' => List.mem_append_left _ h')
    | inr h =>
      exact (walkList_sound rest s h).imp id (fun h' => List.mem_append_right _ h')
end

/-! ### A big-step relation mirroring the four cases of the walk

`WalkRel p l` holds when the recursive walk, read as a relation, can produce
the raw candidate list `l` from `p`.  Totality and uniqueness of this
relation express that the recursion terminates on every finite JSON value,
handles every node by one of the four cases, and returns one list. -/

mutual
inductive WalkRel : Json → List String → Prop where
  | str_hit {s : String} : looks_like_image s = true → WalkRel (.str s) [s]
  | str_miss {s : String} : looks_like_image s = false → WalkRel (.str s) []
  | num {n : Int} : WalkRel (.num n) []
  | bool {b : Bool} : WalkRel (.bool b) []
  | null : WalkRel .null []
  | obj {fs : JFields} {l : List String} :
      WalkFieldsRel fs l → WalkRel (.obj fs) (urlCandidate fs ++ l)
  | arr {xs : JList} {l : List String} :
      WalkListRel xs l → WalkRel (.arr xs) l
inductive WalkFieldsRel : JFields → List String → Prop where
  | nil : WalkFieldsRel .nil []
  | cons {k : String} {v : Json} {rest : JFields} {l₁ l₂ : List String} :
      WalkRel v l₁ → WalkFieldsRel rest l₂ →
      WalkFieldsRel (.cons k v rest) (l₁ ++ l₂)
inductive WalkListRel : JList → List String → Prop where
  | nil : WalkListRel .nil []
  | cons {v : Json} {rest : JList} {l₁ l₂ : List String} :
      WalkRel v l₁ → WalkListRel rest l₂ →
      WalkListRel (.cons v rest) (l₁ ++ l₂)
end

mutual
theorem walkRel_total (p : Json) : WalkRel p (walk p) := by
  cases p with
  | str s =>
    cases hl : looks_like_image s with
    | true =>
      have : walk (.str s) = [s] := by simp [walk, hl]
      rw [this]; exact WalkRel.str_hit hl
    | false =>
      have : walk (.str s) = [] := by simp [walk, hl]
      rw [this]; exact WalkRel.str_miss hl
  | num n => exact WalkRel.num
  | bool b => exact WalkRel.bool
  | null => exact WalkRel.null
  | obj fs => exact WalkRel.obj (walkFieldsRel_total fs)
  | arr xs => exact WalkRel.arr (walkListRel_total xs)
theorem walkFieldsRel_total (fs : JFields) : WalkFieldsRel fs (walkFields fs) := by
  cases fs with
  | nil => exact WalkFieldsRel.nil
  | cons k v rest =>
    exact WalkFieldsRel.cons (walkRel_total v) (walkFieldsRel_total rest)
theorem walkListRel_total (xs : JList) : WalkListRel xs (walkList xs) := by
  cases xs with
  | nil => exact WalkListRel.nil
  | cons v rest =>
    exact WalkListRel.cons (walkRel_total v) (walkListRel_total rest)
end

mutual
theorem walkRel_unique (p : Json) : ∀ l, WalkRel p l → l = walk p := by
  cases p with
  | str s =>
    intro l h
    cases h with
    | str_hit hl => simp [walk, hl]
    | str_miss hl => simp [walk, hl]
  | num n => intro l h; cases h; simp [walk]
  | bool b => intro l h; cases h; simp [walk]
  | null => intro l h; cases h; simp [walk]
  | obj fs =>
    intro l h
    cases h with
    | obj hf => rw [walkFieldsRel_unique fs _ hf]; simp [walk]
  | arr xs =>
    intro l h
    cases h with
    | arr hx => rw [walkListRel_unique xs _ hx]; simp [walk]
theorem walkFieldsRel_unique (fs : JFields) :
    ∀ l, WalkFieldsRel fs l → l = walkFields fs := by
  cases fs with
  | nil => intro l h; cases h; simp [walkFields]
  | cons k v rest =>
    intro l h
    cases h with
    | cons hv hrest =>
      rw [walkRel_unique v _ hv, walkFieldsRel_unique rest _ hrest]
      simp [walkFields]
theorem walkListRel_unique (xs : JList) :
    ∀ l, WalkListRel xs l → l = walkList xs := by
  cases xs with
  | nil => intro l h; cases h; simp [walkList]
  | cons v rest =>
    intro l h
    cases h with
    | cons hv hrest =>
      rw [walkRel_unique v _ hv, walkListRel_unique rest _ hrest]
      simp [walkList]
end

/-! ### The path component used by the predicate -/

theorem splitAtFirst_eq_none {sep : Char} {cs : List Char}
    (h : splitAtFirst sep cs = none) : cs.takeWhile (fun c => c != sep) = cs := by
  induction cs with
  | nil => simp
  | cons c rest ih =>
    simp only [splitAtFirst] at h
    by_cases hc : c = sep
    · rw [if_pos hc] at h; cases h
    · rw [if_neg hc] at h
      cases hsplit : splitAtFirst sep rest with
      | none =>
        simp only [List.takeWhile_cons]
        rw [if_pos (by simp [bne, hc]), ih hsplit]
      | some pr => rw [hsplit] at h; cases h

theorem splitAtFirst_eq_some {sep : Char} {cs pre post : List Char}
    (h : splitAtFirst sep cs = some (pre, post)) :
    pre = cs.takeWhile (fun c => c != sep) := by
  induction cs generalizing pre post with
  | nil => simp [splitAtFirst] at h
  | cons c rest ih =>
    simp only [splitAtFirst] at h
    by_cases hc : c = sep
    · rw [if_pos hc] at h
      cases h
      simp [List.takeWhile_cons, hc]
    · rw [if_neg hc] at h
      cases hsplit : splitAtFirst sep rest with
      | none => rw [hsplit] at h; cases h
      | some pr =>
        rw [hsplit] at h
        cases h
        simp only [List.takeWhile_cons]
        rw [if_pos (by simp [bne, hc])]
        rw [ih hsplit]

theorem pySplitOnce_head (s : String) (sep : Char) :
    (pySplitOnce s sep).headD ""
      = String.mk (s.data.takeWhile (fun c => c != sep)) := by
  unfold pySplitOnce
  cases h : splitAtFirst sep s.data with
  | none =>
    simp only [List.headD]
    rw [splitAtFirst_eq_none h]
  | some pr =>
    obtain ⟨pre, post⟩ := pr
    simp only [List.headD]
    rw [splitAtFirst_eq_some h]

/-- The predicate as the spec words it: the lower-cased string begins with
`http`, and the substring of the lower-cased string before the first `?`
(the whole string when there is no `?`) ends with one of the image
extensions. -/
def spec_image_pred (s : String) : Bool :=
  let lowered := pyLower s
  let pathPart := String.mk (lowered.data.takeWhile (fun c => c != '?'))
  pyStartsWith lowered "http" &&
    (pyEndsWith pathPart ".png" || pyEndsWith pathPart ".jpg" ||
     pyEndsWith pathPart ".jpeg" || pyEndsWith pathPart ".webp")

/-- C1: every extracted string satisfies the predicate and occurs verbatim as
a string node of the input tree, and a tree with no string nodes yields the
empty list. -/
theorem claim_C1_extract_sound (p : Json) :
    (∀ s ∈ extract_image_urls p, looks_like_image s = true ∧ s ∈ stringNodes p) ∧
    (stringNodes p = [] → extract_image_urls p = []) := by
  constructor
  · intro s hs
    have hw : s ∈ walk p := ((mem_dedupSeen (walk p) [] s).mp hs).1
    exact walk_sound p s hw
  · intro hempty
    have hwalk : walk p = [] := by
      refine List.eq_nil_iff_forall_not_mem.mpr (fun s hs => ?_)
      have := (walk_sound p s hs).2
      rw [hempty] at this
      simp at this
    simp [extract_image_urls, hwalk, dedupSeen]

theorem claim_C1_witness :
    (looks_like_image "http://x.com/a.png" = true ∧
      "http://x.com/a.png" ∈ stringNodes (Json.str "http://x.com/a.png")) ∧
    extract_image_urls (Json.num 3) = [] :=
  ⟨(claim_C1_extract_sound (Json.str "http://x.com/a.png")).1 _ (by decide),
    (claim_C1_extract_sound (Json.num 3)).2 (by decide)⟩

/-- C2: `looks_like_image` holds exactly when the lower-cased string begins
with `http` and its part before the first `?` ends with `.png`, `.jpg`,
`.jpeg` or `.webp`; the four spec examples behave as stated. -/
theorem claim_C2_predicate_characterization :
    (∀ s, looks_like_image s = spec_image_pred s) ∧
    looks_like_image "http://x.com/a.png?sig=abc" = true ∧
    looks_like_image "HTTPS://X.COM/A.PNG" = true ∧
    looks_like_image "http://x.com/a.php?img=.png" = false ∧
    looks_like_image "see http://x.com/a.png" = false := by
  refine ⟨?_, by decide, by decide, by decide, by decide⟩
  intro s
  unfold looks_like_image spec_image_pred
  dsimp only
  rw [pySplitOnce_head]
  simp only [List.any_cons, List.any_nil, Bool.or_false, Bool.or_assoc]

/-- C3: the result is duplicate-free (it is its own order-preserving
deduplication), it is the first-occurrence fold of the raw walk, and it is a
sublist of the raw walk (relative order of first occurrences preserved); the
two-field example yields its urls in key order. -/
theorem claim_C3_dedup_order (p : Json) :
    (extract_image_urls p).Nodup ∧
    dedupSeen [] (extract_image_urls p) = extract_image_urls p ∧
    extract_image_urls p
      = (walk p).foldl (fun acc u => if u ∈ acc then acc else acc ++ [u]) [] ∧
    List.Sublist (extract_image_urls p) (walk p) ∧
    extract_image_urls
      (.obj (.cons "a" (.str "http://x.com/1.png")
        (.cons "b" (.str "http://x.com/2.png") .nil)))
      = ["http://x.com/1.png", "http://x.com/2.png"] := by
  refine ⟨nodup_dedupSeen _ _, ?_, ?_, dedupSeen_sublist _ _, by decide⟩
  · exact dedupSeen_of_nodup _ _ (nodup_dedupSeen _ _) (by simp)
  · have := dedupSeen_eq_foldl (walk p) [] [] (by simp)
    simpa [extract_image_urls] using this

/-- C4: an object whose `"url"` key holds a matching string records it before
the generic descent (it heads the raw walk of the object), and the final
result contains it exactly once; the spec's example object yields exactly one
occurrence. -/
theorem claim_C4_url_key_once :
    (∀ (fs : JFields) (u : String),
        JFields.get? fs "url" = some (Json.str u) → looks_like_image u = true →
        walk (Json.obj fs) = u :: walkFields fs ∧
        List.count u (extract_image_urls (Json.obj fs)) = 1) ∧
    extract_image_urls
      (.obj (.cons "url" (.str "http://x.com/a.png")
        (.cons "other" (.str "http://x.com/a.png") .nil)))
      = ["http://x.com/a.png"] := by
  constructor
  · intro fs u hget hli
    have hcand : urlCandidate fs = [u] := by
      simp [urlCandidate, hget, hli]
    have hwalk : walk (Json.obj fs) = u :: walkFields fs := by
      simp [walk, hcand]
    refine ⟨hwalk, ?_⟩
    have hmem : u ∈ extract_image_urls (Json.obj fs) := by
      refine (mem_dedupSeen _ [] u).mpr ⟨?_, by simp⟩
      rw [hwalk]
      exact List.mem_cons_self _ _
    exact List.count_eq_one_of_mem (nodup_dedupSeen _ _) hmem
  · decide

theorem claim_C4_witness :
    walk (Json.obj (.cons "url" (Json.str "http://x.com/a.png") .nil))
        = "http://x.com/a.png"
            :: walkFields (.cons "url" (Json.str "http://x.com/a.png") .nil) ∧
    List.count "http://x.com/a.png"
        (extract_image_urls
          (Json.obj (.cons "url" (Json.str "http://x.com/a.png") .nil))) = 1 :=
  claim_C4_url_key_once.1 _ _ rfl (by decide)

/-- C5: the walk is total and deterministic over the whole JSON-value
domain: every finite tree is related to exactly one candidate list, the one
`walk` computes, and `extract_image_urls` is its deduplication. -/
theorem claim_C5_walk_total (p : Json) :
    WalkRel p (walk p) ∧ (∀ l, WalkRel p l → l = walk p) ∧
    extract_image_urls p = dedupSeen [] (walk p) :=
  ⟨walkRel_total p, walkRel_unique p, rfl⟩

theorem claim_C5_witness :
    WalkRel Json.null (walk Json.null) ∧ ([] : List String) = walk Json.null :=
  ⟨(claim_C5_walk_total Json.null).1,
    (claim_C5_walk_total Json.null).2.1 [] WalkRel.null⟩

/-- C6: a string beginning with `http` but not a URL at all is accepted:
`"httpfoo.png"` satisfies the predicate and is extracted. -/
theorem claim_C6_http_prefix_only :
    looks_like_image "httpfoo.png" = true ∧
    extract_image_urls (Json.str "httpfoo.png") = ["httpfoo.png"] :=
  ⟨by decide, by decide⟩

/-- C9: object keys never contribute: a string absent from the tree's string
nodes is absent from the result even when it matches the predicate, and an
object whose only candidate-looking string is a key yields nothing. -/
theorem claim_C9_keys_not_extracted :
    (∀ (p : Json) (s : String), looks_like_image s = true →
        s ∉ stringNodes p → s ∉ extract_image_urls p) ∧
    extract_image_urls (Json.obj (.cons "http://x.com/k.png" Json.null .nil)) = [] := by
  constructor
  · intro p s _ hns hmem
    have hw : s ∈ walk p := ((mem_dedupSeen (walk p) [] s).mp hmem).1
    exact hns (walk_sound p s hw).2
  · decide

theorem claim_C9_witness :
    "http://x.com/k.png" ∉
      extract_image_urls (Json.obj (.cons "http://x.com/k.png" Json.null .nil)) :=
  claim_C9_keys_not_extracted.1 _ _ (by decide) (by decide)

/-! ### `build_output_path` (script lines 71-78)

`urlsplit(url).path` is modelled after CPython `urllib.parse.urlsplit`:
strip leading C0-control/space characters, remove tab/CR/LF everywhere,
drop a leading `scheme:`, drop a `//netloc`, and cut fragment and query.
`Path(p).name` / `Path(p).stem` follow `PurePosixPath`.  The filesystem is a
boolean `ex` parameter (`Path.exists`), and `/` joins paths. -/

/-- Characters `urlsplit` strips from the front of the url
(WHATWG C0 controls and space). -/
def isC0ControlOrSpace (c : Char) : Bool := c.val ≤ 32

/-- The tab, CR and LF characters `urlsplit` removes everywhere. -/
def isUnsafeUrlChar (c : Char) : Bool := c == '\t' || c == '\r' || c == '\n'

/-- The characters allowed in a url scheme. -/
def isSchemeChar (c : Char) : Bool :=
  c.isAlpha || c.isDigit || c == '+' || c == '-' || c == '.'

/-- Drop a leading `scheme:` when present: `urlsplit` accepts a scheme when
the part before the first `:` is nonempty, starts with an ASCII letter and
consists of scheme characters. -/
def dropScheme (cs : List Char) : List Char :=
  match splitAtFirst ':' cs with
  | some (pre, post) =>
    if !pre.isEmpty && (pre.headD ' ').isAlpha && pre.all isSchemeChar then post
    else cs
  | none => cs

/-- Drop `//netloc` when present: the netloc runs from position 2 to the
first `/`, `?` or `#`; the remainder (starting at that delimiter) is kept. -/
def dropNetloc (cs : List Char) : List Char :=
  match cs with
  | '/' :: '/' :: rest =>
    rest.dropWhile (fun c => !(c == '/' || c == '?' || c == '#'))
  | _ => cs

/-- The `path` component of the result of `urlsplit(url)` *when `urlsplit`
returns*: sanitize, drop scheme and netloc, then cut the fragment (first
`#`) and the query (first `?`).  `urlsplit` can instead raise `ValueError`
on a netloc containing square brackets; that error path is modelled by
`urlsplitPathE` below, and the theorems about `build_output_path` restrict
to bracket-free netlocs, on which `urlsplit` always returns this value. -/
def urlsplitPath (url : String) : String :=
  let cs := url.data.dropWhile isC0ControlOrSpace
  let cs := cs.filter (fun c => !isUnsafeUrlChar c)
  let cs := dropNetloc (dropScheme cs)
  let cs := cs.takeWhile (fun c => c != '#')
  String.mk (cs.takeWhile (fun c => c != '?'))

/-- Split a character list on `/`, keeping empty components, as Python
`"a/b".split("/")` does. -/
def splitOnSlash : List Char → List (List Char)
  | [] => [[]]
  | c :: rest =>
    let r := splitOnSlash rest
    if c = '/' then [] :: r
    else
      match r with
      | [] => [[c]]
      | h :: t => (c :: h) :: t

/-- Model of `PurePosixPath(p).name`: the last path component after dropping
empty and `.` components; `""` when no component remains. -/
def posixName (p : String) : String :=
  String.mk
    (((splitOnSlash p.data).filter (fun c => !c.isEmpty && c != ['.'])).getLastD [])

/-- Model of `PurePosixPath(p).stem`: the name without its suffix, where the
suffix starts at the last `.` provided that dot is neither the first nor the
last character of the name. -/
def pyStem (p : String) : String :=
  let n := (posixName p).data
  match splitAtFirst '.' n.reverse with
  | none => String.mk n
  | some (extRev, restRev) =>
    if restRev.isEmpty || extRev.isEmpty then String.mk n
    else String.mk restRev.reverse

/-- `build_output_path` from the script: name the file by the url path's
basename, fall back to `<stem>_<index>.png` when the basename is empty, and
divert to `<stem>_<index>_<name>` when the destination already exists. -/
def build_output_path (ex : String → Bool) (output_dir metadata_file url : String)
    (index : Nat) : String :=
  let name0 := posixName (urlsplitPath url)
  let name :=
    if name0 = "" then pyStem metadata_file ++ "_" ++ toString index ++ ".png"
    else name0
  let destination := output_dir ++ "/" ++ name
  if ex destination then
    output_dir ++ "/" ++ (pyStem metadata_file ++ "_" ++ toString index ++ "_" ++ name)
  else destination

/-- The inner `for index, url in enumerate(urls, start=1)` loop: download
each url, log `Failed to download ...` and continue on error, log
`Saved ...` on success. -/
def downloadLoop {σ : Type} (download : σ → String → String → Except String σ)
    (fsEx : σ → String → Bool) (outDir mf : String) :
    σ → Nat → List String → List String × σ
  | s, _, [] => ([], s)
  | s, idx, url :: rest =>
    let dest := build_output_path (fsEx s) outDir mf url idx
    match download s url dest with
    | .error e =>
      let r := downloadLoop download fsEx outDir mf s (idx + 1) rest
      (("Failed to download " ++ url ++ " from " ++ mf ++ ": " ++ e) :: r.1, r.2)
    | .ok s2 =>
      let r := downloadLoop download fsEx outDir mf s2 (idx + 1) rest
      (("Saved " ++ url ++ " -> " ++ dest) :: r.1, r.2)

/-- The outer `for metadata_path in metadata_files` loop: parse each file,
log `Failed to read metadata ...` and continue on error, log
`No image URLs found ...` when extraction is empty, else truncate to
`--max-per-file` and run the download loop. -/
def mainLoop {σ : Type} (readParse : σ → String → Except String Json)
    (download : σ → String → String → Except String σ)
    (fsEx : σ → String → Bool) (outDir : String) (maxPerFile : Option Nat) :
    σ → List String → List String × σ
  | s, [] => ([], s)
  | s, mf :: rest =>
    match readParse s mf with
    | .error e =>
      let r := mainLoop readParse download fsEx outDir maxPerFile s rest
      (("Failed to read metadata " ++ mf ++ ": " ++ e) :: r.1, r.2)
    | .ok payload =>
      let urls := extract_image_urls payload
      if urls = [] then
        let r := mainLoop readParse download fsEx outDir maxPerFile s rest
        (("No image URLs found in " ++ mf) :: r.1, r.2)
      else
        let urls2 :=
          match maxPerFile with
          | some n => urls.take n
          | none => urls
        let d := downloadLoop download fsEx outDir mf s 1 urls2
        let r := mainLoop readParse download fsEx outDir maxPerFile d.2 rest
        (d.1 ++ r.1, r.2)

/-- C8: a failure on one item never aborts the batch: a metadata file whose
read/parse fails contributes its `Failed to read metadata` line and the loop
still processes every remaining file from the same state; a url whose
download fails contributes its `Failed to download` line and the loop still
processes every remaining url from the same state. -/
theorem claim_C8_failures_isolated {σ : Type}
    (readParse : σ → String → Except String Json)
    (download : σ → String → String → Except String σ)
    (fsEx : σ → String → Bool) (outDir : String) (mx : Option Nat) :
    (∀ (s : σ) (mf : String) (rest : List String) (e : String),
        readParse s mf = .error e →
        mainLoop readParse download fsEx outDir mx s (mf :: rest)
          = (("Failed to read metadata " ++ mf ++ ": " ++ e)
                :: (mainLoop readParse download fsEx outDir mx s rest).1,
              (mainLoop readParse download fsEx outDir mx s rest).2)) ∧
    (∀ (s : σ) (mf : String) (idx : Nat) (url : String) (rest : List String)
        (e : String),
        download s url (build_output_path (fsEx s) outDir mf url idx) = .error e →
        downloadLoop download fsEx outDir mf s idx (url :: rest)
          = (("Failed to download " ++ url ++ " from " ++ mf ++ ": " ++ e)
                :: (downloadLoop download fsEx outDir mf s (idx + 1) rest).1,
              (downloadLoop download fsEx outDir mf s (idx + 1) rest).2)) := by
  constructor
  · intro s mf rest e h
    simp [mainLoop, h]
  · intro s mf idx url rest e h
    simp [downloadLoop, h]

theorem claim_C8_witness :
    mainLoop (σ := Unit) (fun _ _ => Except.error "bad json")
        (fun _ _ _ => Except.error "timeout") (fun _ _ => false) "out" none
        () ["a.json", "b.json"]
      = ("Failed to read metadata a.json: bad json"
          :: (mainLoop (σ := Unit) (fun _ _ => Except.error "bad json")
                (fun _ _ _ => Except.error "timeout") (fun _ _ => false) "out" none
                () ["b.json"]).1,
         (mainLoop (σ := Unit) (fun _ _ => Except.error "bad json")
            (fun _ _ _ => Except.error "timeout") (fun _ _ => false) "out" none
            () ["b.json"]).2) ∧
    downloadLoop (σ := Unit) (fun _ _ _ => Except.error "timeout")
        (fun _ _ => false) "out" "a.json" () 1 ["http://x.com/a.png", "http://x.com/b.png"]
      = ("Failed to download http://x.com/a.png from a.json: timeout"
          :: (downloadLoop (σ := Unit) (fun _ _ _ => Except.error "timeout")
                (fun _ _ => false) "out" "a.json" () 2 ["http://x.com/b.png"]).1,
         (downloadLoop (σ := Unit) (fun _ _ _ => Except.error "timeout")
            (fun _ _ => false) "out" "a.json" () 2 ["http://x.com/b.png"]).2) :=
  ⟨(claim_C8_failures_isolated (fun _ _ => Except.error "bad json")
      (fun _ _ _ => Except.error "timeout") (fun _ _ => false) "out" none).1
      () "a.json" ["b.json"] "bad json" rfl,
    (claim_C8_failures_isolated (fun _ _ => Except.error "bad json")
      (fun _ _ _ => Except.error "timeout") (fun _ _ => false) "out" none).2
      () "a.json" 1 "http://x.com/a.png" ["http://x.com/b.png"] "timeout" rfl⟩
